import Mathlib

/-!
# fubcc: classification of application bundles by executable header

A shallow embedding of `src/fubcc.cc` and the verification of its contract.

* `std::string` is the list of its `char`s, each taken as an unsigned value.
* `std::regex` (ECMAScript grammar, backtracking, leftmost match) is embedded as
  a small matcher over the constructs the program's pattern is built from.
* The filesystem, the indeterminate initial value of an uninitialised local and
  the host byte order are fields of `World`.
* `std::sort` is a library routine: it enters as a parameter, constrained by
  the contract the C++ standard gives it (`StdSortContract`).
* `std::cout` and `std::cerr` are the texts written to them.
-/

namespace Fubcc

/-! ## Strings -/

/-- One `char`, as its unsigned value. -/
abbrev Byte := Fin 256

/-- A `std::string`: the sequence of its `char`s. -/
abbrev CppString := List Byte

/-- An ASCII string literal of the source, as a `std::string`. -/
def str (s : String) : CppString := s.toList.map (fun c => Fin.ofNat c.toNat)

/-- The newline written by `std::endl`. -/
def endl : CppString := [10]

/-! ## `std::regex`, restricted to the constructs of the program's pattern -/

/-- Regular expressions: literal runs, greedy `c*` and `c+` over a character
class, one capturing group, concatenation. -/
inductive Regex where
  | lit (s : CppString)
  | star (cls : Byte → Bool)
  | plus (cls : Byte → Bool)
  | group (r : Regex)
  | cat (r₁ r₂ : Regex)

/-- The class `\s` in the classic "C" locale (the program never changes the
global locale): space, `\t`, `\n`, `\v`, `\f`, `\r`. -/
def isSpace (c : Byte) : Bool :=
  c = 32 || c = 9 || c = 10 || c = 11 || c = 12 || c = 13

/-- The class `[^<]`. -/
def notLt (c : Byte) : Bool := c != 60

/-- Consume the literal `s` at the head of the input; the rest of the input on
success. -/
def dropLit : CppString → CppString → Option CppString
  | [], inp => some inp
  | _ :: _, [] => none
  | c :: cs, d :: ds => if c = d then dropLit cs ds else none

/-- Greedy repetition of a character class with backtracking: take as many
characters as possible, and give one back each time the continuation `k`
(the rest of the pattern) fails. -/
def starGreedy {R : Type} (cls : Byte → Bool) (k : CppString → Option R) :
    CppString → Option R
  | [] => k []
  | c :: cs =>
    if cls c then
      match starGreedy cls k cs with
      | some r => some r
      | none => k (c :: cs)
    else k (c :: cs)

/-- Backtracking matcher in continuation-passing style. The continuation gets
the remaining input and the text captured by group 1 so far. -/
def Regex.run {R : Type} :
    Regex → (CppString → Option CppString → Option R) → CppString →
      Option CppString → Option R
  | .lit s, k, inp, cap =>
    match dropLit s inp with
    | some rest => k rest cap
    | none => none
  | .star cls, k, inp, cap => starGreedy cls (fun rest => k rest cap) inp
  | .plus cls, k, inp, cap =>
    match inp with
    | [] => none
    | c :: cs => if cls c then starGreedy cls (fun rest => k rest cap) cs else none
  | .group r, k, inp, cap =>
    r.run (fun rest _ => k rest (some (inp.take (inp.length - rest.length)))) inp cap
  | .cat r₁ r₂, k, inp, cap => r₁.run (r₂.run k) inp cap

/-- A match anchored at the head of the input. The result is the content of the
`std::smatch`: sub-match 0 (the whole match) and sub-match 1 (the group). -/
def matchAt (r : Regex) (inp : CppString) : Option (List CppString) :=
  r.run (fun rest cap => some [inp.take (inp.length - rest.length), cap.getD []]) inp none

/-- `std::regex_search`: the match at the leftmost position that has one;
`none` when the call returns `false`. -/
def regexSearch (r : Regex) : CppString → Option (List CppString)
  | [] => matchAt r []
  | c :: cs =>
    match matchAt r (c :: cs) with
    | some m => some m
    | none => regexSearch r cs

/-! ## `getCFBundleExecutable` (fubcc.cc, lines 20-30) -/

/-- The literal `<key>CFBundleExecutable</key>`. -/
def keyToken : CppString := str "<key>CFBundleExecutable</key>"

/-- The literal `<string>`. -/
def openTag : CppString := str "<string>"

/-- The literal `</string>`. -/
def closeTag : CppString := str "</string>"

/-- The pattern `<key>CFBundleExecutable</key>\s*<string>([^<]+)</string>`. -/
def bundleRegex : Regex :=
  .cat (.lit keyToken) (.cat (.star isSpace) (.cat (.lit openTag)
    (.cat (.group (.plus notLt)) (.lit closeTag))))

/-- Executable name declared in the manifest text, or the empty string. -/
def getCFBundleExecutable (content : CppString) : CppString :=
  match regexSearch bundleRegex content with
  | some m => if m.length = 2 then m.getD 1 [] else []
  | none => []

/-! ## Data model (fubcc.cc, lines 12-18) -/

/-- The enumeration `BinaryType`. -/
inductive BinaryType where
  | Unknown
  | Universal
  | Intel
  | AppleSilicon
  deriving DecidableEq

/-- The record `ProgramInfo`. The field `executablePath` holds the path of the
manifest (`Info.plist`) the record was built from. -/
structure ProgramInfo where
  executableName : CppString
  executablePath : CppString
  binaryType : BinaryType
  deriving DecidableEq

/-! ## Magic numbers and the `uint32_t` they are compared with -/

/-- Modelled from the spec: `FAT_MAGIC` of the system header `<mach-o/fat.h>`,
which is not under src/; the bytes CA FE BA BE read as one number. -/
def FAT_MAGIC : Nat := 0xcafebabe

/-- Modelled from the spec: `FAT_CIGAM` of `<mach-o/fat.h>`, which is not under
src/; `FAT_MAGIC` with reversed byte order. -/
def FAT_CIGAM : Nat := 0xbebafeca

/-- Modelled from the spec: `MH_MAGIC` of the system header `<mach-o/loader.h>`,
which is not under src/; the bytes FE ED FA CE read as one number. -/
def MH_MAGIC : Nat := 0xfeedface

/-- Modelled from the spec: `MH_CIGAM` of `<mach-o/loader.h>`, which is not
under src/; `MH_MAGIC` with reversed byte order. -/
def MH_CIGAM : Nat := 0xcefaedfe

/-- Modelled from the spec: `MH_MAGIC_64` of `<mach-o/loader.h>`, which is not
under src/; the bytes FE ED FA CF read as one number. -/
def MH_MAGIC_64 : Nat := 0xfeedfacf

/-- Modelled from the spec: `MH_CIGAM_64` of `<mach-o/loader.h>`, which is not
under src/; `MH_MAGIC_64` with reversed byte order. -/
def MH_CIGAM_64 : Nat := 0xcffaedfe

/-- Object representation of a `uint32_t`: its four bytes in address order. -/
structure U32Object where
  b0 : Byte
  b1 : Byte
  b2 : Byte
  b3 : Byte
  deriving DecidableEq

/-- Value of the object under the host byte order. -/
def U32Object.value (bigEndian : Bool) (m : U32Object) : Nat :=
  if bigEndian then
    m.b0.val * 16777216 + m.b1.val * 65536 + m.b2.val * 256 + m.b3.val
  else
    m.b0.val + m.b1.val * 256 + m.b2.val * 65536 + m.b3.val * 16777216

/-- Effect on the object of `read(reinterpret_cast<char*>(&magic), 4)` having
extracted the given characters: they are stored from the first byte on, and the
bytes that were not reached keep the value they had. -/
def U32Object.store (m : U32Object) : CppString → U32Object
  | [] => m
  | [a] => { m with b0 := a }
  | [a, b] => { m with b0 := a, b1 := b }
  | [a, b, c] => { m with b0 := a, b1 := b, b2 := c }
  | a :: b :: c :: d :: _ => ⟨a, b, c, d⟩

/-! ## `std::ifstream` on an opened file -/

/-- State of an input file stream: the bytes of the file, the get position and
the two state flags the program can reach. -/
structure IfStream where
  data : CppString
  pos : Nat
  failbit : Bool
  eofbit : Bool

/-- A stream just opened on a file with the given bytes. -/
def IfStream.opened (data : CppString) : IfStream := ⟨data, 0, false, false⟩

/-- The unformatted input `read(buf, n)`. On a stream that is not `good()` it
sets `failbit` and extracts nothing. Otherwise it extracts up to `n` characters;
when the file ends first, the characters obtained are still stored and `eofbit`
and `failbit` are set. Returns the stream and the characters stored. -/
def IfStream.read (s : IfStream) (n : Nat) : IfStream × CppString :=
  if s.failbit || s.eofbit then ({ s with failbit := true }, [])
  else
    let got := (s.data.drop s.pos).take n
    if got.length < n then
      ({ s with pos := s.pos + got.length, failbit := true, eofbit := true }, got)
    else ({ s with pos := s.pos + n }, got)

/-- The call `seekg(off)`: clears `eofbit`, then repositions unless `fail()`. -/
def IfStream.seekg (s : IfStream) (off : Nat) : IfStream :=
  let s₁ := { s with eofbit := false }
  if s₁.failbit then s₁ else { s₁ with pos := off }

/-! ## The environment -/

/-- One element yielded by `fs::directory_iterator`. -/
structure DirEntry where
  /-- The string `entry.path().string()`. -/
  path : CppString
  /-- The value of `fs::is_directory(entry.status())`. -/
  isDirectory : Bool
  deriving DecidableEq

/-- Everything the program reads from outside. -/
structure World where
  /-- The entries `fs::directory_iterator(path)` yields, and whether the
  iteration then ends with a `filesystem_error` (a failure to open the
  directory is `([], true)`). -/
  readdir : CppString → List DirEntry × Bool
  /-- The value of `fs::exists(p)`; `none` when it throws `filesystem_error`. -/
  pathExists : CppString → Option Bool
  /-- The bytes a `std::ifstream` on the path delivers; `none` when `is_open()`
  is false. -/
  openFile : CppString → Option CppString
  /-- The local `uint32_t magic` is declared without initialiser: these are the
  bytes it holds, in the run at hand, when the executable at the given path is
  about to be read. They may be what an earlier read left there, so two runs
  over different listings are two worlds with different `staleMagic`. -/
  staleMagic : CppString → U32Object
  /-- Host byte order. -/
  bigEndian : Bool
  /-- The text `e.what()` of a caught `filesystem_error`. -/
  errorWhat : CppString

/-! ## `parseInfoPlist` (fubcc.cc, lines 32-97) -/

/-- The call `s.find_last_of(c)`; `none` is `npos`. -/
def findLastOf (s : CppString) (c : Byte) : Option Nat :=
  match s with
  | [] => none
  | x :: xs =>
    match findLastOf xs c with
    | some i => some (i + 1)
    | none => if x = c then some 0 else none

/-- The call `s.substr(0, pos)`, where `pos` may be `npos`. -/
def substr0 (s : CppString) (pos : Option Nat) : CppString :=
  match pos with
  | some p => s.take p
  | none => s

/-- Lines 48-51: the path of the executable named by the manifest. -/
def executablePathOf (infoPlistPath bundleExecutable : CppString) : CppString :=
  let pos := findLastOf infoPlistPath 47
  substr0 infoPlistPath pos ++ str "/MacOS/" ++ bundleExecutable

/-- Lines 56-81: classification of an opened executable. Returns the result and
the text written to `std::cerr`. -/
def classifyOpened (bigEndian : Bool) (stale : U32Object) (bytes : CppString) :
    BinaryType × CppString :=
  let execFile := IfStream.opened bytes
  let magic := stale
  let r₁ := execFile.read 4
  let magic := magic.store r₁.2
  if magic.value bigEndian = FAT_MAGIC || magic.value bigEndian = FAT_CIGAM then
    (BinaryType.Universal, [])
  else
    let execFile := r₁.1.seekg 0
    let r₂ := execFile.read 4
    let magic := magic.store r₂.2
    if magic.value bigEndian = MH_MAGIC || magic.value bigEndian = MH_CIGAM then
      (BinaryType.Intel, [])
    else if magic.value bigEndian = MH_MAGIC_64 || magic.value bigEndian = MH_CIGAM_64 then
      (BinaryType.AppleSilicon, [])
    else
      (BinaryType.Unknown, str "Unknown Binary Format" ++ endl)

/-- Inspect the bundle whose manifest is at `infoPlistPath`. Returns the
classification and the text written to `std::cerr`. -/
def parseInfoPlist (w : World) (infoPlistPath : CppString) : BinaryType × CppString :=
  match w.openFile infoPlistPath with
  | some content =>
    let bundleExecutable := getCFBundleExecutable content
    if bundleExecutable ≠ [] then
      let executablePath := executablePathOf infoPlistPath bundleExecutable
      match w.openFile executablePath with
      | some bytes => classifyOpened w.bigEndian (w.staleMagic executablePath) bytes
      | none =>
        (BinaryType.Unknown, str "Error opening executable file: " ++ executablePath ++ endl)
    else
      (BinaryType.Unknown,
        str "Error: CFBundleExecutable not found in " ++ infoPlistPath ++ endl)
  | none =>
    (BinaryType.Unknown, str "Error opening Info.plist file: " ++ infoPlistPath ++ endl)

/-! ## `printProgramList` (fubcc.cc, lines 99-111) -/

/-- The comparison `operator<` of `std::string`: lexicographic on the unsigned
values of the characters, a proper prefix being smaller. -/
def strLess : CppString → CppString → Bool
  | _, [] => false
  | [], _ :: _ => true
  | a :: as, b :: bs => if a < b then true else if b < a then false else strLess as bs

/-- The comparator passed to `std::sort` (lines 103-105). -/
def nameLess (a b : ProgramInfo) : Bool := strLess a.executableName b.executableName

/-- Type of `std::sort` on a vector of records: comparator and vector in, the
rearranged vector out. -/
abbrev SortFn := (ProgramInfo → ProgramInfo → Bool) → List ProgramInfo → List ProgramInfo

/-- What the C++ standard promises of `std::sort` for the comparator of the
program: the result is a rearrangement of the input, and no element is
smaller than one that precedes it. The relative order of equivalent elements is
left open. -/
def StdSortContract (sort : SortFn) : Prop :=
  ∀ l : List ProgramInfo,
    (sort nameLess l).Perm l ∧ (sort nameLess l).Pairwise (fun a b => nameLess b a = false)

/-- Sort the vector, print the title and one name per line. Returns the vector
as the call leaves it and the text written to `std::cout`. -/
def printProgramList (sort : SortFn) (title : CppString) (programs : List ProgramInfo) :
    List ProgramInfo × CppString :=
  let programs := sort nameLess programs
  let out := endl ++ title ++ str ":" ++ endl
  (programs, programs.foldl (fun out program => out ++ program.executableName ++ endl) out)

/-- A reference implementation of the sort contract: insert one element after
the elements that are smaller than it. -/
def insertSorted (comp : ProgramInfo → ProgramInfo → Bool) (x : ProgramInfo) :
    List ProgramInfo → List ProgramInfo
  | [] => [x]
  | y :: ys => if comp y x then y :: insertSorted comp x ys else x :: y :: ys

/-- A reference implementation of the sort contract: insertion sort. It moves
an element only past elements that are smaller, so equivalent elements keep
the order they came in, as they do under the library sorts on short vectors. -/
def insertionSort : SortFn
  | _, [] => []
  | comp, x :: xs => insertSorted comp x (insertionSort comp xs)

/-! ## `listDirectoriesAndInfoPlist` (fubcc.cc, lines 113-171) -/

/-- The three vectors declared at lines 114-116. -/
structure Buckets where
  universalBinaries : List ProgramInfo
  intelBinaries : List ProgramInfo
  appleSiliconBinaries : List ProgramInfo

/-- The suffix appended to a directory path at line 126. -/
def plistSuffix : CppString := str "/Contents/Info.plist"

/-- Lines 132-143: the record of a candidate bundle. The manifest is read a
second time, through a stream whose state is never tested: an unopened stream
delivers nothing. -/
def buildRecord (w : World) (infoPlistPath : CppString) (binaryType : BinaryType) :
    ProgramInfo :=
  let buffer := (w.openFile infoPlistPath).getD []
  { executableName := getCFBundleExecutable buffer
    executablePath := infoPlistPath
    binaryType := binaryType }

/-- Lines 145-157: the `switch` that appends the record to a vector. -/
def pushRecord (b : Buckets) (programInfo : ProgramInfo) : Buckets :=
  match programInfo.binaryType with
  | .Universal => { b with universalBinaries := b.universalBinaries ++ [programInfo] }
  | .Intel => { b with intelBinaries := b.intelBinaries ++ [programInfo] }
  | .AppleSilicon => { b with appleSiliconBinaries := b.appleSiliconBinaries ++ [programInfo] }
  | .Unknown => b

/-- Lines 120-159: the loop body for one entry. `none` when `fs::exists` throws
a `filesystem_error`; otherwise the vectors and the text written to
`std::cerr`. -/
def visitEntry (w : World) (b : Buckets) (entry : DirEntry) : Option (Buckets × CppString) :=
  if entry.isDirectory then
    let directoryPath := entry.path
    let infoPlistPath := directoryPath ++ plistSuffix
    match w.pathExists infoPlistPath with
    | none => none
    | some false => some (b, [])
    | some true =>
      let r := parseInfoPlist w infoPlistPath
      let programInfo := buildRecord w infoPlistPath r.1
      some (pushRecord b programInfo, r.2)
  else some (b, [])

/-- Lines 119-160: the loop over the entries, threading the vectors and the
text written to `std::cerr`; the first component is `none` when a
`filesystem_error` left the loop. -/
def visitAll (w : World) : List DirEntry → Buckets → CppString → Option Buckets × CppString
  | [], b, err => (some b, err)
  | e :: es, b, err =>
    match visitEntry w b e with
    | none => (none, err)
    | some r => visitAll w es r.1 (err ++ r.2)

/-- What a run writes: `out` to `std::cout`, `err` to `std::cerr`. -/
structure Output where
  out : CppString
  err : CppString

/-- Lines 168-170: the handler of `filesystem_error`. -/
def accessError (w : World) (err : CppString) : Output :=
  ⟨[], err ++ str "Error accessing directory: " ++ w.errorWhat ++ endl⟩

/-- Lines 163-166: the three sections, in the order they are printed. -/
def printReport (sort : SortFn) (b : Buckets) : CppString :=
  let r₁ := printProgramList sort (str "Intel (x86_64) Binaries") b.intelBinaries
  let r₂ := printProgramList sort (str "Apple Silicon (arm64) Binaries") b.appleSiliconBinaries
  let r₃ := printProgramList sort (str "Universal Binaries") b.universalBinaries
  r₁.2 ++ r₂.2 ++ r₃.2

/-- The whole pass over the directory `path`. -/
def listDirectoriesAndInfoPlist (w : World) (sort : SortFn) (path : CppString) : Output :=
  let listing := w.readdir path
  match visitAll w listing.1 ⟨[], [], []⟩ [] with
  | (some b, err) =>
    if listing.2 then accessError w err
    else ⟨printReport sort b, err⟩
  | (none, err) => accessError w err

/-! ## Specification-side predicates -/

/-- The text starts with the key token, then optional whitespace, then
`<string>x</string>` where `x` is non-empty and free of `<`. -/
def KeyValueAt (inp x : CppString) : Prop :=
  ∃ ws post, inp = keyToken ++ ws ++ openTag ++ x ++ closeTag ++ post ∧
    (∀ c ∈ ws, isSpace c = true) ∧ x ≠ [] ∧ (∀ c ∈ x, c ≠ 60)

/-- Somewhere in the text the key token is followed, after optional whitespace,
by a non-empty string-typed value. -/
def KeyFollowedByStringValue (content : CppString) : Prop :=
  ∃ pre suf x, content = pre ++ suf ∧ KeyValueAt suf x

/-- The decision table on the first four bytes of an executable: FAT magic,
32-bit Mach-O magic, 64-bit Mach-O magic, each in either byte order. -/
def headerTable (b0 b1 b2 b3 : Byte) : BinaryType :=
  if [b0, b1, b2, b3] = [0xCA, 0xFE, 0xBA, 0xBE] ∨ [b0, b1, b2, b3] = [0xBE, 0xBA, 0xFE, 0xCA] then
    BinaryType.Universal
  else if [b0, b1, b2, b3] = [0xFE, 0xED, 0xFA, 0xCE] ∨
      [b0, b1, b2, b3] = [0xCE, 0xFA, 0xED, 0xFE] then
    BinaryType.Intel
  else if [b0, b1, b2, b3] = [0xFE, 0xED, 0xFA, 0xCF] ∨
      [b0, b1, b2, b3] = [0xCF, 0xFA, 0xED, 0xFE] then
    BinaryType.AppleSilicon
  else BinaryType.Unknown

/-- The file starts with four bytes that the decision table recognises. -/
def HeaderMatchesMagic (bytes : CppString) : Prop :=
  ∃ b0 b1 b2 b3 rest, bytes = b0 :: b1 :: b2 :: b3 :: rest ∧
    headerTable b0 b1 b2 b3 ≠ BinaryType.Unknown

/-- The lines printed for a sequence of names: each name followed by a
newline. -/
def nameLines : List CppString → CppString
  | [] => []
  | n :: ns => n ++ endl ++ nameLines ns

/-- A titled section of the report. -/
def sectionText (title : CppString) (names : List CppString) : CppString :=
  endl ++ title ++ str ":" ++ endl ++ nameLines names

/-- Ascending order of names: no name is smaller than an earlier one. -/
def NamesAscending (names : List CppString) : Prop :=
  names.Pairwise (fun a b => strLess b a = false)

/-- The order the specification gives to a section: by name, and among equal
names by manifest path. -/
def OrderedByNameThenPath (l : List ProgramInfo) : Prop :=
  l.Pairwise (fun a b =>
    strLess a.executableName b.executableName = true ∨
      (a.executableName = b.executableName ∧ strLess b.executablePath a.executablePath = false))

/-- A sort that reaches the records through the comparator only, as a library
template does: relabelling the records in a way the comparator cannot see
relabels the result in the same way. -/
def ComparatorOnly (sort : SortFn) : Prop :=
  ∀ (f : ProgramInfo → ProgramInfo) (l : List ProgramInfo),
    (∀ a b, nameLess (f a) (f b) = nameLess a b) →
    sort nameLess (l.map f) = (sort nameLess l).map f

/-- The record of a candidate bundle, classification included. -/
def recordOf (w : World) (e : DirEntry) : ProgramInfo :=
  buildRecord w (e.path ++ plistSuffix) (parseInfoPlist w (e.path ++ plistSuffix)).1

/-- A manifest that declares the given executable name. -/
def demoManifest (name : String) : CppString :=
  str "<dict><key>CFBundleExecutable</key>\n\t<string>" ++ str name ++ str "</string></dict>"

/-- The files of the concrete directory. -/
def demoFiles : List (CppString × CppString) :=
  [(str "/Applications/Z.app/Contents/Info.plist", demoManifest "Z"),
   (str "/Applications/Z.app/Contents/MacOS/Z", [0xCE, 0xFA, 0xED, 0xFE, 7, 0, 0, 0]),
   (str "/Applications/U.app/Contents/Info.plist", demoManifest "U"),
   (str "/Applications/U.app/Contents/MacOS/U", [0xCA, 0xFE, 0xBA, 0xBE, 0, 0, 0, 2]),
   (str "/Applications/C.app/Contents/Info.plist", str "<dict></dict>"),
   (str "/Applications/M.app/Contents/Info.plist", demoManifest "M"),
   (str "/Applications/M.app/Contents/MacOS/M", [0xCE, 0xFA, 0xED, 0xFE, 7, 0, 0, 0]),
   (str "/Applications/S.app/Contents/Info.plist", demoManifest "S"),
   (str "/Applications/S.app/Contents/MacOS/S", str "#!/bin/sh\n"),
   (str "/Applications/A.app/Contents/Info.plist", demoManifest "A"),
   (str "/Applications/A.app/Contents/MacOS/A", [0xCF, 0xFA, 0xED, 0xFE, 12, 0, 0, 1]),
   (str "/Applications/E.app/Contents/Info.plist", demoManifest "E"),
   (str "/Applications/T.app/Contents/Info.plist", demoManifest "T"),
   (str "/Applications/T.app/Contents/MacOS/T", []),
   (str "/Applications/notes.txt", str "hello")]

/-- The listing of the concrete directory `/Applications`. -/
def demoListing : List DirEntry :=
  [⟨str "/Applications/Z.app", true⟩, ⟨str "/Applications/B.app", true⟩,
   ⟨str "/Applications/U.app", true⟩, ⟨str "/Applications/C.app", true⟩,
   ⟨str "/Applications/M.app", true⟩, ⟨str "/Applications/S.app", true⟩,
   ⟨str "/Applications/A.app", true⟩, ⟨str "/Applications/E.app", true⟩,
   ⟨str "/Applications/notes.txt", false⟩]

/-- A little-endian host with the concrete directory; the variable `magic`
holds zeros before each read. -/
def demoWorld : World where
  readdir := fun p => if p = str "/Applications" then (demoListing, false) else ([], true)
  pathExists := fun p => some (demoFiles.lookup p).isSome
  openFile := fun p => demoFiles.lookup p
  staleMagic := fun _ => ⟨0, 0, 0, 0⟩
  bigEndian := false
  errorWhat := str "filesystem error"

/-- The same host at a moment when the variable `magic` holds the bytes
CA FE BA BE before the read. -/
def staleWorld : World :=
  { demoWorld with
    staleMagic := fun _ => ⟨0xCA, 0xFE, 0xBA, 0xBE⟩
    readdir := fun _ => (demoListing ++ [⟨str "/Applications/T.app", true⟩], false) }

theorem dropLit_append (s rest : CppString) : dropLit s (s ++ rest) = some rest := by
  induction s with
  | nil => cases rest <;> rfl
  | cons c cs ih => simp [dropLit, ih]

theorem eq_append_of_dropLit {s inp rest : CppString} (h : dropLit s inp = some rest) :
    inp = s ++ rest := by
  induction s generalizing inp with
  | nil =>
    cases inp <;> simp [dropLit] at h <;> simp [h]
  | cons c cs ih =>
    cases inp with
    | nil => simp [dropLit] at h
    | cons d ds =>
      simp only [dropLit] at h
      split at h
      · rename_i hcd
        rw [hcd, ih h]; rfl
      · cases h

theorem dropLit_eq_some_iff {s inp rest : CppString} :
    dropLit s inp = some rest ↔ inp = s ++ rest :=
  ⟨eq_append_of_dropLit, fun h => h ▸ dropLit_append s rest⟩

/-- When the rest of the pattern cannot start with a character of the class,
greedy repetition never gives a character back: it skips the longest run. -/
theorem starGreedy_eq_dropWhile {R : Type} (cls : Byte → Bool) (k : CppString → Option R)
    (hk : ∀ c cs, cls c = true → k (c :: cs) = none) (inp : CppString) :
    starGreedy cls k inp = k (inp.dropWhile cls) := by
  induction inp with
  | nil => rfl
  | cons c cs ih =>
    by_cases hc : cls c = true
    · simp only [starGreedy, hc, if_true, List.dropWhile_cons_of_pos, ih]
      cases hres : k (List.dropWhile cls cs) with
      | some r => rfl
      | none => simp [hk c cs hc]
    · simp [starGreedy, hc, List.dropWhile_cons_of_neg]

theorem openTag_eq_cons : openTag = 60 :: str "string>" := by decide

theorem closeTag_eq_cons : closeTag = 60 :: str "/string>" := by decide

theorem keyToken_eq_cons : keyToken = 60 :: str "key>CFBundleExecutable</key>" := by decide

theorem dropLit_cons_of_ne {a c : Byte} (h : a ≠ c) (s cs : CppString) :
    dropLit (a :: s) (c :: cs) = none := by
  simp [dropLit, h]

theorem isSpace_ne_lt {c : Byte} (h : isSpace c = true) : (60 : Byte) ≠ c := by
  rintro rfl
  revert h
  decide

theorem notLt_ne_lt {c : Byte} (h : notLt c = true) : (60 : Byte) ≠ c := by
  rintro rfl
  revert h
  decide

theorem notLt_iff {c : Byte} : notLt c = true ↔ c ≠ 60 := by
  simp [notLt]

/-- The anchored match of the program's pattern, with the backtracking
resolved: each repetition skips the longest run of its class. -/
theorem matchAt_bundleRegex (inp : CppString) :
    matchAt bundleRegex inp =
      (dropLit keyToken inp).bind fun r₁ =>
      (dropLit openTag (r₁.dropWhile isSpace)).bind fun r₃ =>
        match r₃ with
        | [] => none
        | c :: cs =>
          if notLt c then
            (dropLit closeTag (cs.dropWhile notLt)).bind fun r₅ =>
              some [inp.take (inp.length - r₅.length),
                r₃.take (r₃.length - (cs.dropWhile notLt).length)]
          else none := by
  unfold matchAt bundleRegex
  simp only [Regex.run]
  cases h₁ : dropLit keyToken inp with
  | none => rfl
  | some r₁ =>
    simp only [Option.bind]
    rw [starGreedy_eq_dropWhile]
    · cases h₃ : dropLit openTag (List.dropWhile isSpace r₁) with
      | none => rfl
      | some r₃ =>
        simp only []
        cases r₃ with
        | nil => rfl
        | cons c cs =>
          simp only []
          by_cases hc : notLt c = true
          · simp only [hc, if_true]
            rw [starGreedy_eq_dropWhile]
            · cases h₅ : dropLit closeTag (List.dropWhile notLt cs) with
              | none => rfl
              | some r₅ => simp
            · intro d ds hd
              simp only [closeTag_eq_cons]
              rw [dropLit_cons_of_ne (notLt_ne_lt hd)]
          · simp [hc]
    · intro d ds hd
      simp only [openTag_eq_cons]
      rw [dropLit_cons_of_ne (isSpace_ne_lt hd)]

theorem dropWhile_append_cons_of_all {p : Byte → Bool} {ws : CppString} {c : Byte}
    (hws : ∀ d ∈ ws, p d = true) (hc : p c = false) (rest : CppString) :
    (ws ++ c :: rest).dropWhile p = c :: rest := by
  induction ws with
  | nil => simp [List.dropWhile, hc]
  | cons d ds ih =>
    have hd : p d = true := hws d (List.mem_cons_self _ _)
    simp only [List.cons_append, List.dropWhile_cons_of_pos hd]
    exact ih (fun e he => hws e (List.mem_cons_of_mem _ he))

theorem take_length_sub_append (a b : CppString) :
    (a ++ b).take ((a ++ b).length - b.length) = a := by
  simp

/-- Completeness of the anchored match: a text of the shape the pattern
describes is matched, with the value as sub-match 1. -/
theorem matchAt_of_keyValueAt {inp x : CppString} (h : KeyValueAt inp x) :
    ∃ whole, matchAt bundleRegex inp = some [whole, x] := by
  obtain ⟨ws, post, rfl, hws, hx, hlt⟩ := h
  cases x with
  | nil => exact absurd rfl hx
  | cons c cs =>
    have hc : notLt c = true := notLt_iff.mpr (hlt c (List.mem_cons_self _ _))
    have hcs : ∀ d ∈ cs, notLt d = true := fun d hd =>
      notLt_iff.mpr (hlt d (List.mem_cons_of_mem _ hd))
    rw [matchAt_bundleRegex]
    have e₁ : keyToken ++ ws ++ openTag ++ c :: cs ++ closeTag ++ post
        = keyToken ++ (ws ++ (openTag ++ (c :: (cs ++ (closeTag ++ post))))) := by
      simp [List.append_assoc]
    rw [e₁, dropLit_append]
    simp only [Option.bind]
    have e₂ : (ws ++ (openTag ++ (c :: (cs ++ (closeTag ++ post))))).dropWhile isSpace
        = openTag ++ (c :: (cs ++ (closeTag ++ post))) := by
      rw [openTag_eq_cons]
      exact dropWhile_append_cons_of_all hws (by decide) _
    rw [e₂, dropLit_append]
    simp only [hc, if_true]
    have e₃ : (cs ++ (closeTag ++ post)).dropWhile notLt = closeTag ++ post := by
      rw [closeTag_eq_cons]
      exact dropWhile_append_cons_of_all hcs (by decide) _
    rw [e₃, dropLit_append]
    have e₄ : (c :: (cs ++ (closeTag ++ post))) = (c :: cs) ++ (closeTag ++ post) := rfl
    rw [e₄, take_length_sub_append]
    exact ⟨_, rfl⟩

/-- Soundness of the anchored match: whatever it matches has the shape the
pattern describes, and sub-match 1 is the value. -/
theorem keyValueAt_of_matchAt {inp : CppString} {m : List CppString}
    (h : matchAt bundleRegex inp = some m) :
    ∃ whole x, m = [whole, x] ∧ KeyValueAt inp x := by
  rw [matchAt_bundleRegex] at h
  cases h₁ : dropLit keyToken inp with
  | none => simp [h₁] at h
  | some r₁ =>
    rw [h₁] at h
    simp only [Option.bind] at h
    cases h₃ : dropLit openTag (r₁.dropWhile isSpace) with
    | none => simp [h₃] at h
    | some r₃ =>
      rw [h₃] at h
      simp only [] at h
      cases r₃ with
      | nil => simp at h
      | cons c cs =>
        simp only [] at h
        by_cases hc : notLt c = true
        · simp only [hc, if_true] at h
          cases h₅ : dropLit closeTag (cs.dropWhile notLt) with
          | none => simp [h₅] at h
          | some r₅ =>
            rw [h₅] at h
            simp only [Option.some.injEq] at h
            have i₁ := eq_append_of_dropLit h₁
            have i₃ := eq_append_of_dropLit h₃
            have i₅ := eq_append_of_dropLit h₅
            have hsplit : cs = cs.takeWhile notLt ++ (closeTag ++ r₅) := by
              rw [← i₅, List.takeWhile_append_dropWhile]
            have hcap : (c :: cs).take ((c :: cs).length - (cs.dropWhile notLt).length)
                = c :: cs.takeWhile notLt := by
              have e : c :: cs = (c :: cs.takeWhile notLt) ++ cs.dropWhile notLt := by
                simp [List.takeWhile_append_dropWhile]
              conv_lhs => rw [e]
              exact take_length_sub_append _ _
            refine ⟨inp.take (inp.length - r₅.length), c :: cs.takeWhile notLt, ?_,
              r₁.takeWhile isSpace, r₅, ?_, ?_, ?_, ?_⟩
            · rw [← h, hcap]
            · have hr₁ : r₁ = r₁.takeWhile isSpace ++ (openTag ++ (c :: cs)) := by
                rw [← i₃, List.takeWhile_append_dropWhile]
              rw [i₁]
              conv_lhs => rw [hr₁, hsplit]
              simp [List.append_assoc]
            · intro d hd
              exact (List.mem_takeWhile_imp hd)
            · simp
            · intro d hd
              rcases List.mem_cons.mp hd with rfl | hd
              · exact notLt_iff.mp hc
              · exact notLt_iff.mp (List.mem_takeWhile_imp hd)
        · simp [hc] at h

/-! ## The search -/

theorem regexSearch_eq_some {r : Regex} {inp : CppString} {m : List CppString}
    (h : regexSearch r inp = some m) :
    ∃ pre suf, inp = pre ++ suf ∧ matchAt r suf = some m := by
  induction inp with
  | nil => exact ⟨[], [], rfl, h⟩
  | cons c cs ih =>
    simp only [regexSearch] at h
    cases hm : matchAt r (c :: cs) with
    | some m' =>
      rw [hm] at h
      exact ⟨[], c :: cs, rfl, by rw [hm]; exact h⟩
    | none =>
      rw [hm] at h
      obtain ⟨pre, suf, e, hs⟩ := ih h
      exact ⟨c :: pre, suf, by rw [e]; rfl, hs⟩

theorem regexSearch_eq_none {r : Regex} {inp : CppString}
    (h : ∀ pre suf, inp = pre ++ suf → matchAt r suf = none) :
    regexSearch r inp = none := by
  induction inp with
  | nil => exact h [] [] rfl
  | cons c cs ih =>
    simp only [regexSearch]
    rw [h [] (c :: cs) rfl]
    exact ih (fun pre suf e => h (c :: pre) suf (by rw [e]; rfl))

/-- The search returns the match at the leftmost position that has one. -/
theorem regexSearch_leftmost {r : Regex} (pre suf : CppString) {m : List CppString}
    (hm : matchAt r suf = some m)
    (hfirst : ∀ pre' suf', pre' ++ suf' = pre ++ suf → pre'.length < pre.length →
      matchAt r suf' = none) :
    regexSearch r (pre ++ suf) = some m := by
  induction pre with
  | nil =>
    cases suf with
    | nil => exact hm
    | cons c cs => simp only [List.nil_append, regexSearch, hm]
  | cons p ps ih =>
    have h₀ : matchAt r (p :: (ps ++ suf)) = none :=
      hfirst [] (p :: (ps ++ suf)) rfl (by simp)
    show (match matchAt r (p :: (ps ++ suf)) with
      | some m => some m
      | none => regexSearch r (ps ++ suf)) = some m
    rw [h₀]
    exact ih (fun pre' suf' e hlen =>
      hfirst (p :: pre') suf' (by rw [List.cons_append, e]; rfl) (by simpa using hlen))

/-! ## `getCFBundleExecutable` -/

/-- A non-empty result is the value of a key/value pair of the text. -/
theorem keyValueAt_of_getCFBundleExecutable_ne_nil {content : CppString}
    (h : getCFBundleExecutable content ≠ []) :
    ∃ pre suf, content = pre ++ suf ∧ KeyValueAt suf (getCFBundleExecutable content) := by
  unfold getCFBundleExecutable at h ⊢
  cases hs : regexSearch bundleRegex content with
  | none => simp [hs] at h
  | some m =>
    obtain ⟨pre, suf, e, hm⟩ := regexSearch_eq_some hs
    obtain ⟨whole, x, rfl, hkv⟩ := keyValueAt_of_matchAt hm
    exact ⟨pre, suf, e, by simpa using hkv⟩

/-- The value of the leftmost key/value pair of the text is returned. -/
theorem getCFBundleExecutable_leftmost (pre suf x : CppString) (hkv : KeyValueAt suf x)
    (hfirst : ∀ pre' suf' y, pre' ++ suf' = pre ++ suf → pre'.length < pre.length →
      ¬ KeyValueAt suf' y) :
    getCFBundleExecutable (pre ++ suf) = x := by
  obtain ⟨whole, hm⟩ := matchAt_of_keyValueAt hkv
  have hs : regexSearch bundleRegex (pre ++ suf) = some [whole, x] := by
    refine regexSearch_leftmost pre suf hm (fun pre' suf' e hlen => ?_)
    cases hm' : matchAt bundleRegex suf' with
    | none => rfl
    | some m' =>
      obtain ⟨_, y, _, hy⟩ := keyValueAt_of_matchAt hm'
      exact absurd hy (hfirst pre' suf' y e hlen)
  simp [getCFBundleExecutable, hs]

theorem getCFBundleExecutable_eq_nil_of_not_followed {content : CppString}
    (h : ¬ KeyFollowedByStringValue content) : getCFBundleExecutable content = [] := by
  by_contra hne
  obtain ⟨pre, suf, e, hkv⟩ := keyValueAt_of_getCFBundleExecutable_ne_nil hne
  exact h ⟨pre, suf, _, e, hkv⟩

theorem keyToken_occurs_of_followed {content : CppString}
    (h : KeyFollowedByStringValue content) : keyToken <:+: content := by
  obtain ⟨pre, suf, x, rfl, ws, post, rfl, -⟩ := h
  exact ⟨pre, ws ++ openTag ++ x ++ closeTag ++ post, by simp [List.append_assoc]⟩

/-- C1 (amended): when the text contains `<key>CFBundleExecutable</key><string>X</string>`
with `X` non-empty and free of `<`, and no key/value pair of the pattern starts
at an earlier position of the text, `getCFBundleExecutable` returns exactly `X`. -/
theorem C1_first_pair_value_returned (pre X post : CppString) (hX : X ≠ [])
    (hlt : ∀ c ∈ X, c ≠ 60)
    (hfirst : ∀ pre' suf' Y,
      pre' ++ suf' = pre ++ (keyToken ++ openTag ++ X ++ closeTag ++ post) →
      pre'.length < pre.length → ¬ KeyValueAt suf' Y) :
    getCFBundleExecutable (pre ++ (keyToken ++ openTag ++ X ++ closeTag ++ post)) = X :=
  getCFBundleExecutable_leftmost pre _ X
    ⟨[], post, by simp, by simp, hX, hlt⟩ hfirst

/-- C1 witness: the manifest `<dict><key>CFBundleExecutable</key><string>Safari</string></dict>`. -/
theorem C1_first_pair_value_returned_witness :
    getCFBundleExecutable
      (str "<dict>" ++ (keyToken ++ openTag ++ str "Safari" ++ closeTag ++ str "</dict>"))
      = str "Safari" :=
  C1_first_pair_value_returned (str "<dict>") (str "Safari") (str "</dict>")
    (by decide) (by simp [str]; decide)
    (by
      intro pre' suf' Y e hlen hkv
      obtain ⟨whole, hm'⟩ := matchAt_of_keyValueAt hkv
      have hm : (matchAt bundleRegex suf').isSome = true := by rw [hm']; rfl
      have hsuf : suf' = (str "<dict>" ++
          (keyToken ++ openTag ++ str "Safari" ++ closeTag ++ str "</dict>")).drop
            pre'.length := by
        rw [← e, List.drop_left]
      have hlen' : pre'.length < 6 := hlen
      rw [hsuf] at hm
      revert hm
      generalize pre'.length = k at hlen'
      interval_cases k <;> decide)

/-- C1 (as stated) fails on two grounds: a value that contains `<` is not
returned (the result is empty), and of two key/value pairs only the value of
the first is returned. -/
theorem C1_counterexample :
    (str "a<b" ≠ [] ∧
      (keyToken ++ openTag ++ str "a<b" ++ closeTag) <:+:
        str "<key>CFBundleExecutable</key><string>a<b</string>" ∧
      getCFBundleExecutable (str "<key>CFBundleExecutable</key><string>a<b</string>")
        ≠ str "a<b") ∧
    (str "B" ≠ [] ∧
      (keyToken ++ openTag ++ str "B" ++ closeTag) <:+:
        str ("<key>CFBundleExecutable</key><string>A</string>" ++
          "<key>CFBundleExecutable</key><string>B</string>") ∧
      getCFBundleExecutable
        (str ("<key>CFBundleExecutable</key><string>A</string>" ++
          "<key>CFBundleExecutable</key><string>B</string>")) ≠ str "B") := by
  refine ⟨⟨by decide, ⟨[], [], by decide⟩, by decide⟩, ⟨by decide, ⟨?_, [], ?_⟩, by decide⟩⟩
  · exact str "<key>CFBundleExecutable</key><string>A</string>"
  · decide

/-- C4: a text without the key token `<key>CFBundleExecutable</key>`, and a
text in which no occurrence of the key token is followed (after optional
whitespace) by `<string>X</string>` with `X` non-empty character data, both
yield the empty string. -/
theorem C4_absent_or_malformed_yields_empty (content : CppString) :
    (¬ keyToken <:+: content → getCFBundleExecutable content = []) ∧
    (¬ KeyFollowedByStringValue content → getCFBundleExecutable content = []) :=
  ⟨fun h => getCFBundleExecutable_eq_nil_of_not_followed
      (fun hf => h (keyToken_occurs_of_followed hf)),
    getCFBundleExecutable_eq_nil_of_not_followed⟩

theorem regexSearch_isSome_of_matchAt (r : Regex) (pre suf : CppString)
    (h : (matchAt r suf).isSome = true) : (regexSearch r (pre ++ suf)).isSome = true := by
  induction pre with
  | nil =>
    cases suf with
    | nil => exact h
    | cons c cs =>
      simp only [List.nil_append, regexSearch]
      cases hm : matchAt r (c :: cs) with
      | none => rw [hm] at h; cases h
      | some m => rfl
  | cons p ps ih =>
    show (match matchAt r (p :: (ps ++ suf)) with
      | some m => some m
      | none => regexSearch r (ps ++ suf)).isSome = true
    cases matchAt r (p :: (ps ++ suf)) with
    | none => exact ih
    | some m => rfl

/-- Converse of `getCFBundleExecutable_eq_nil_of_not_followed`. -/
theorem getCFBundleExecutable_ne_nil_of_followed {content : CppString}
    (h : KeyFollowedByStringValue content) : getCFBundleExecutable content ≠ [] := by
  obtain ⟨pre, suf, x, rfl, hkv⟩ := h
  obtain ⟨whole, hm⟩ := matchAt_of_keyValueAt hkv
  have hs := regexSearch_isSome_of_matchAt bundleRegex pre suf (by rw [hm]; rfl)
  cases hr : regexSearch bundleRegex (pre ++ suf) with
  | none => rw [hr] at hs; cases hs
  | some m =>
    obtain ⟨pre', suf', _, hm'⟩ := regexSearch_eq_some hr
    obtain ⟨whole', y, rfl, _, _, _, _, hy, _⟩ := keyValueAt_of_matchAt hm'
    simpa [getCFBundleExecutable, hr] using hy

/-- C4 witness: a manifest without the key token, and a manifest whose key is
followed by an integer-typed value. -/
theorem C4_absent_or_malformed_yields_empty_witness :
    (¬ keyToken <:+: str "<dict><key>CFBundleName</key><string>X</string></dict>" ∧
      getCFBundleExecutable (str "<dict><key>CFBundleName</key><string>X</string></dict>")
        = []) ∧
    (¬ KeyFollowedByStringValue (str "<key>CFBundleExecutable</key><integer>1</integer>") ∧
      getCFBundleExecutable (str "<key>CFBundleExecutable</key><integer>1</integer>")
        = []) :=
  ⟨⟨by decide, (C4_absent_or_malformed_yields_empty _).1 (by decide)⟩,
    ⟨fun h => getCFBundleExecutable_ne_nil_of_followed h (by decide),
      (C4_absent_or_malformed_yields_empty _).2
        (fun h => getCFBundleExecutable_ne_nil_of_followed h (by decide))⟩⟩

/-! ## Classification of the header -/

theorem read4_opened (b0 b1 b2 b3 : Byte) (rest : CppString) :
    (IfStream.opened (b0 :: b1 :: b2 :: b3 :: rest)).read 4 =
      (⟨b0 :: b1 :: b2 :: b3 :: rest, 4, false, false⟩, [b0, b1, b2, b3]) := by
  simp [IfStream.opened, IfStream.read]

theorem read4_after_seekg (b0 b1 b2 b3 : Byte) (rest : CppString) :
    ((⟨b0 :: b1 :: b2 :: b3 :: rest, 4, false, false⟩ : IfStream).seekg 0).read 4 =
      (⟨b0 :: b1 :: b2 :: b3 :: rest, 4, false, false⟩, [b0, b1, b2, b3]) := by
  simp [IfStream.seekg, IfStream.read]

/-- Under either byte order the value determines the four bytes. -/
theorem U32Object.value_injective (bigEndian : Bool) (m n : U32Object)
    (h : m.value bigEndian = n.value bigEndian) : m = n := by
  obtain ⟨m0, m1, m2, m3⟩ := m
  obtain ⟨n0, n1, n2, n3⟩ := n
  have hm0 := m0.isLt
  have hm1 := m1.isLt
  have hm2 := m2.isLt
  have hm3 := m3.isLt
  have hn0 := n0.isLt
  have hn1 := n1.isLt
  have hn2 := n2.isLt
  have hn3 := n3.isLt
  cases bigEndian <;> simp only [U32Object.value, Bool.false_eq_true, if_false, if_true] at h
  · have k0 : m0 = n0 := Fin.ext (by omega)
    have k1 : m1 = n1 := Fin.ext (by omega)
    have k2 : m2 = n2 := Fin.ext (by omega)
    have k3 : m3 = n3 := Fin.ext (by omega)
    rw [k0, k1, k2, k3]
  · have k0 : m0 = n0 := Fin.ext (by omega)
    have k1 : m1 = n1 := Fin.ext (by omega)
    have k2 : m2 = n2 := Fin.ext (by omega)
    have k3 : m3 = n3 := Fin.ext (by omega)
    rw [k0, k1, k2, k3]

theorem U32Object.value_swap (bigEndian : Bool) (a0 a1 a2 a3 : Byte) :
    (⟨a0, a1, a2, a3⟩ : U32Object).value bigEndian =
      (⟨a3, a2, a1, a0⟩ : U32Object).value (!bigEndian) := by
  cases bigEndian <;> simp [U32Object.value] <;> ring

/-- A value equals a magic number or its byte-swapped twin exactly when the
four bytes spell the magic number in one of the two orders. -/
theorem magic_or_cigam_iff (bigEndian : Bool) (m : U32Object) (a0 a1 a2 a3 : Byte)
    (M C : Nat) (hM : M = (⟨a0, a1, a2, a3⟩ : U32Object).value true)
    (hC : C = (⟨a0, a1, a2, a3⟩ : U32Object).value false) :
    (m.value bigEndian = M ∨ m.value bigEndian = C) ↔
      (m = ⟨a0, a1, a2, a3⟩ ∨ m = ⟨a3, a2, a1, a0⟩) := by
  have hM' : M = (⟨a3, a2, a1, a0⟩ : U32Object).value false := by
    rw [hM, U32Object.value_swap]; rfl
  have hC' : C = (⟨a3, a2, a1, a0⟩ : U32Object).value true := by
    rw [hC, U32Object.value_swap]; rfl
  cases bigEndian
  · constructor
    · rintro (h | h)
      · exact Or.inr (U32Object.value_injective false _ _ (h.trans hM'))
      · exact Or.inl (U32Object.value_injective false _ _ (h.trans hC))
    · rintro (h | h)
      · exact Or.inr (by rw [h, hC])
      · exact Or.inl (by rw [h, hM'])
  · constructor
    · rintro (h | h)
      · exact Or.inl (U32Object.value_injective true _ _ (h.trans hM))
      · exact Or.inr (U32Object.value_injective true _ _ (h.trans hC'))
    · rintro (h | h)
      · exact Or.inl (by rw [h, hM])
      · exact Or.inr (by rw [h, hC'])

/-- With four bytes or more in the file, the classification is a function of
the first four bytes alone, whatever the host byte order and whatever the
variable `magic` held before. -/
theorem classifyOpened_of_four (bigEndian : Bool) (stale : U32Object) (b0 b1 b2 b3 : Byte)
    (rest : CppString) :
    (classifyOpened bigEndian stale (b0 :: b1 :: b2 :: b3 :: rest)).1 =
      headerTable b0 b1 b2 b3 := by
  have hfat := magic_or_cigam_iff bigEndian ⟨b0, b1, b2, b3⟩ 0xCA 0xFE 0xBA 0xBE
    FAT_MAGIC FAT_CIGAM (by decide) (by decide)
  have hmh := magic_or_cigam_iff bigEndian ⟨b0, b1, b2, b3⟩ 0xFE 0xED 0xFA 0xCE
    MH_MAGIC MH_CIGAM (by decide) (by decide)
  have hmh64 := magic_or_cigam_iff bigEndian ⟨b0, b1, b2, b3⟩ 0xFE 0xED 0xFA 0xCF
    MH_MAGIC_64 MH_CIGAM_64 (by decide) (by decide)
  unfold classifyOpened headerTable
  simp only [read4_opened, read4_after_seekg, U32Object.store, Bool.or_eq_true,
    decide_eq_true_eq, hfat, hmh, hmh64, U32Object.mk.injEq, List.cons.injEq, and_true]
  split_ifs <;> rfl

/-! ## Ordering of names -/

theorem strLess_irrefl (a : CppString) : strLess a a = false := by
  induction a with
  | nil => rfl
  | cons x xs ih => simp [strLess, ih]

theorem strLess_asymm {a b : CppString} (h : strLess a b = true) : strLess b a = false := by
  induction a generalizing b with
  | nil => cases b <;> simp [strLess] at h ⊢
  | cons x xs ih =>
    cases b with
    | nil => simp [strLess] at h
    | cons y ys =>
      simp only [strLess] at h ⊢
      by_cases hxy : x < y
      · have hyx : ¬ y < x := not_lt_of_lt hxy
        simp [hyx, hxy]
      · by_cases hyx : y < x
        · simp [hxy, hyx] at h
        · simp only [hxy, hyx, if_false] at h ⊢
          exact ih h

theorem strLess_trans {a b c : CppString} (hab : strLess a b = true)
    (hbc : strLess b c = true) : strLess a c = true := by
  induction a generalizing b c with
  | nil =>
    cases c with
    | nil => cases b <;> simp [strLess] at hbc
    | cons z zs => rfl
  | cons x xs ih =>
    cases b with
    | nil => simp [strLess] at hab
    | cons y ys =>
      cases c with
      | nil => simp [strLess] at hbc
      | cons z zs =>
        simp only [strLess] at hab hbc ⊢
        by_cases hxy : x < y
        · by_cases hyz : y < z
          · simp [lt_trans hxy hyz]
          · by_cases hzy : z < y
            · simp [hyz, hzy] at hbc
            · have : y = z := le_antisymm (not_lt.mp hzy) (not_lt.mp hyz)
              subst this
              simp [hxy]
        · by_cases hyx : y < x
          · simp [hxy, hyx] at hab
          · have : x = y := le_antisymm (not_lt.mp hyx) (not_lt.mp hxy)
            subst this
            simp only [hxy, if_false] at hab
            by_cases hxz : x < z
            · simp [hxz]
            · by_cases hzx : z < x
              · simp [hxz, hzx] at hbc
              · simp only [hxz, hzx, if_false] at hbc ⊢
                exact ih hab hbc

/-- Two strings neither of which is smaller than the other are equal. -/
theorem eq_of_not_strLess {a b : CppString} (hab : strLess a b = false)
    (hba : strLess b a = false) : a = b := by
  induction a generalizing b with
  | nil =>
    cases b with
    | nil => rfl
    | cons y ys => simp [strLess] at hab
  | cons x xs ih =>
    cases b with
    | nil => simp [strLess] at hba
    | cons y ys =>
      simp only [strLess] at hab hba
      by_cases hxy : x < y
      · simp [hxy] at hab
      · by_cases hyx : y < x
        · simp [hyx] at hba
        · have : x = y := le_antisymm (not_lt.mp hyx) (not_lt.mp hxy)
          subst this
          simp only [hxy, if_false] at hab hba
          rw [ih hab hba]

/-- Two ascending sequences holding the same names are the same sequence. -/
theorem eq_of_perm_of_namesAscending {l₁ l₂ : List CppString} (hp : l₁.Perm l₂)
    (h₁ : NamesAscending l₁) (h₂ : NamesAscending l₂) : l₁ = l₂ := by
  induction l₁ generalizing l₂ with
  | nil => exact (List.Perm.nil_eq hp)
  | cons a as ih =>
    cases l₂ with
    | nil => exact absurd hp.symm (List.Perm.nil_eq · |> fun h => by cases h)
    | cons b bs =>
      have ha := List.pairwise_cons.mp h₁
      have hb := List.pairwise_cons.mp h₂
      have hab : a = b := by
        have hbin : b ∈ a :: as := hp.symm.subset (List.mem_cons_self _ _)
        have hain : a ∈ b :: bs := hp.subset (List.mem_cons_self _ _)
        rcases List.mem_cons.mp hbin with e | hmem
        · exact e.symm
        · rcases List.mem_cons.mp hain with e | hmem'
          · exact e
          · exact eq_of_not_strLess (hb.1 a hmem') (ha.1 b hmem)
      subst hab
      rw [ih (List.Perm.cons_inv hp) ha.2 hb.2]

/-- A string smaller than `x` is smaller than `y`, or `y` is smaller than `x`. -/
theorem strLess_or_of_strLess {z x : CppString} (y : CppString) (h : strLess z x = true) :
    strLess z y = true ∨ strLess y x = true := by
  by_cases hzy : strLess z y = true
  · exact Or.inl hzy
  · by_cases hyz : strLess y z = true
    · exact Or.inr (strLess_trans hyz h)
    · have e : z = y := eq_of_not_strLess (by simpa using hzy) (by simpa using hyz)
      exact Or.inr (e ▸ h)

/-! ## The reference sort meets the contract -/

theorem insertSorted_perm (x : ProgramInfo) (l : List ProgramInfo) :
    (insertSorted nameLess x l).Perm (x :: l) := by
  induction l with
  | nil => exact List.Perm.refl _
  | cons y ys ih =>
    simp only [insertSorted]
    split
    · exact ((List.Perm.cons y ih).trans (List.Perm.swap x y ys))
    · exact List.Perm.refl _

theorem insertSorted_pairwise (x : ProgramInfo) (l : List ProgramInfo)
    (hl : l.Pairwise (fun a b => nameLess b a = false)) :
    (insertSorted nameLess x l).Pairwise (fun a b => nameLess b a = false) := by
  induction l with
  | nil => simp [insertSorted]
  | cons y ys ih =>
    have hy := List.pairwise_cons.mp hl
    simp only [insertSorted]
    split
    · rename_i hyx
      refine List.pairwise_cons.mpr ⟨?_, ih hy.2⟩
      intro z hz
      rcases List.mem_cons.mp ((insertSorted_perm x ys).subset hz) with rfl | hz
      · exact strLess_asymm hyx
      · exact hy.1 z hz
    · rename_i hyx
      have hyx' : nameLess y x = false := by simpa using hyx
      refine List.pairwise_cons.mpr ⟨?_, hl⟩
      intro z hz
      rcases List.mem_cons.mp hz with rfl | hz
      · exact hyx'
      · by_contra hzx
        have hzx' : strLess z.executableName x.executableName = true := by
          simpa [nameLess] using hzx
        rcases strLess_or_of_strLess y.executableName hzx' with h | h
        · have h' := hy.1 z hz
          simp only [nameLess] at h'
          rw [h] at h'
          cases h'
        · simp only [nameLess] at hyx'
          rw [h] at hyx'
          cases hyx'

theorem insertionSort_contract : StdSortContract insertionSort := by
  intro l
  induction l with
  | nil => exact ⟨List.Perm.refl _, List.Pairwise.nil⟩
  | cons x xs ih =>
    exact ⟨(insertSorted_perm x _).trans (List.Perm.cons x ih.1),
      insertSorted_pairwise x _ ih.2⟩

/-! ## `printProgramList` -/

theorem foldl_print (l : List ProgramInfo) (init : CppString) :
    l.foldl (fun out program => out ++ program.executableName ++ endl) init =
      init ++ nameLines (l.map (·.executableName)) := by
  induction l generalizing init with
  | nil => simp [nameLines]
  | cons p ps ih =>
    rw [List.foldl_cons, ih, List.map_cons, nameLines]
    simp only [List.append_assoc]

/-- The text printed is the titled section of the names of the sorted vector. -/
theorem printProgramList_out (sort : SortFn) (title : CppString) (l : List ProgramInfo) :
    (printProgramList sort title l).2 =
      sectionText title ((printProgramList sort title l).1.map (·.executableName)) := by
  simp only [printProgramList, sectionText, foldl_print]

theorem printProgramList_sorted (sort : SortFn) (title : CppString) (l : List ProgramInfo) :
    (printProgramList sort title l).1 = sort nameLess l := rfl

theorem namesAscending_of_contract {sort : SortFn} (hsort : StdSortContract sort)
    (l : List ProgramInfo) :
    NamesAscending ((sort nameLess l).map (·.executableName)) := by
  unfold NamesAscending
  rw [List.pairwise_map]
  exact (hsort l).2

/-- C5: for a sort that meets the contract of `std::sort`, the names
`printProgramList` prints for a list and for any permutation of it are the
same sequence (hence the same text), and that sequence is ascending in the
byte-wise order of `std::string`. -/
theorem C5_printed_names_independent_of_input_order (sort : SortFn)
    (hsort : StdSortContract sort) (title : CppString) (l l' : List ProgramInfo)
    (hperm : l.Perm l') :
    (printProgramList sort title l).1.map (·.executableName) =
        (printProgramList sort title l').1.map (·.executableName) ∧
      (printProgramList sort title l).2 = (printProgramList sort title l').2 ∧
      NamesAscending ((printProgramList sort title l).1.map (·.executableName)) ∧
      (printProgramList sort title l).2 =
        sectionText title ((printProgramList sort title l).1.map (·.executableName)) := by
  have hnames : (sort nameLess l).map (·.executableName) =
      (sort nameLess l').map (·.executableName) := by
    apply eq_of_perm_of_namesAscending
    · exact List.Perm.map _ (((hsort l).1.trans hperm).trans (hsort l').1.symm)
    · exact namesAscending_of_contract hsort l
    · exact namesAscending_of_contract hsort l'
  refine ⟨hnames, ?_, namesAscending_of_contract hsort l, printProgramList_out sort title l⟩
  rw [printProgramList_out, printProgramList_out]
  simp only [printProgramList_sorted, hnames]

/-- C5 witness: the bundles M and Z of the specification's scenario 4, listed
in the two possible orders. -/
theorem C5_printed_names_independent_of_input_order_witness :
    (printProgramList insertionSort (str "Intel (x86_64) Binaries")
        [⟨str "Z", str "/Applications/Z.app/Contents/Info.plist", .Intel⟩,
          ⟨str "M", str "/Applications/M.app/Contents/Info.plist", .Intel⟩]).2 =
      (printProgramList insertionSort (str "Intel (x86_64) Binaries")
        [⟨str "M", str "/Applications/M.app/Contents/Info.plist", .Intel⟩,
          ⟨str "Z", str "/Applications/Z.app/Contents/Info.plist", .Intel⟩]).2 :=
  (C5_printed_names_independent_of_input_order insertionSort insertionSort_contract
    (str "Intel (x86_64) Binaries")
    [⟨str "Z", str "/Applications/Z.app/Contents/Info.plist", .Intel⟩,
      ⟨str "M", str "/Applications/M.app/Contents/Info.plist", .Intel⟩]
    [⟨str "M", str "/Applications/M.app/Contents/Info.plist", .Intel⟩,
      ⟨str "Z", str "/Applications/Z.app/Contents/Info.plist", .Intel⟩]
    (List.Perm.swap _ _ _)).2.1

/-- C6 (amended): for a sort that meets the contract of `std::sort`, the vector
after the sort in `printProgramList` is a rearrangement of the records it was
given, ordered by `executableName` ascending. -/
theorem C6_sorted_by_name_only (sort : SortFn) (hsort : StdSortContract sort)
    (title : CppString) (l : List ProgramInfo) :
    (printProgramList sort title l).1.Perm l ∧
      (printProgramList sort title l).1.Pairwise
        (fun a b => strLess b.executableName a.executableName = false) :=
  hsort l

/-- C6 witness: two records, the larger name first. -/
theorem C6_sorted_by_name_only_witness :
    (printProgramList insertionSort (str "Universal Binaries")
        [⟨str "Z", str "/Applications/Z.app/Contents/Info.plist", .Universal⟩,
          ⟨str "M", str "/Applications/M.app/Contents/Info.plist", .Universal⟩]).1.Pairwise
      (fun a b => strLess b.executableName a.executableName = false) :=
  (C6_sorted_by_name_only insertionSort insertionSort_contract (str "Universal Binaries")
    [⟨str "Z", str "/Applications/Z.app/Contents/Info.plist", .Universal⟩,
      ⟨str "M", str "/Applications/M.app/Contents/Info.plist", .Universal⟩]).2

/-- C6 (as stated) fails: the comparator looks at names only, so the sort does
not order records of equal name by manifest path. Two bundles that both
declare the executable `A`, enumerated with the paths descending, are left in
that order. -/
theorem C6_counterexample :
    ¬ (∀ sort : SortFn, StdSortContract sort → ∀ (title : CppString) (l : List ProgramInfo),
        OrderedByNameThenPath (printProgramList sort title l).1) := by
  intro h
  have h₁ := h insertionSort insertionSort_contract (str "Intel (x86_64) Binaries")
    [⟨str "A", str "/Applications/B.app/Contents/Info.plist", .Intel⟩,
      ⟨str "A", str "/Applications/A.app/Contents/Info.plist", .Intel⟩]
  have h₂ : (printProgramList insertionSort (str "Intel (x86_64) Binaries")
      [⟨str "A", str "/Applications/B.app/Contents/Info.plist", .Intel⟩,
        ⟨str "A", str "/Applications/A.app/Contents/Info.plist", .Intel⟩]).1 =
      [⟨str "A", str "/Applications/B.app/Contents/Info.plist", .Intel⟩,
        ⟨str "A", str "/Applications/A.app/Contents/Info.plist", .Intel⟩] := by decide
  rw [h₂] at h₁
  have h₃ := (List.pairwise_cons.mp h₁).1 _ (List.mem_cons_self _ _)
  revert h₃
  decide

/-! ## `parseInfoPlist` -/

theorem findLastOf_append_cons (a b : CppString) (c : Byte) (hb : c ∉ b) :
    findLastOf (a ++ c :: b) c = some a.length := by
  have hnone : findLastOf b c = none := by
    induction b with
    | nil => rfl
    | cons x xs ih =>
      have hx : x ≠ c := fun e => hb (e ▸ List.mem_cons_self _ _)
      simp [findLastOf, ih (fun h => hb (List.mem_cons_of_mem _ h)), hx]
  induction a with
  | nil => simp [findLastOf, hnone]
  | cons x xs ih => simp [findLastOf, ih]

/-- For a manifest at `<bundle>/Contents/Info.plist` the executable is looked
for at `<bundle>/Contents/MacOS/<name>`. -/
theorem executablePathOf_plist (dir name : CppString) :
    executablePathOf (dir ++ plistSuffix) name = dir ++ str "/Contents/MacOS/" ++ name := by
  have e : dir ++ plistSuffix = (dir ++ str "/Contents") ++ 47 :: str "Info.plist" := by
    rw [List.append_assoc]
    congr 1
  have h := findLastOf_append_cons (dir ++ str "/Contents") (str "Info.plist") 47 (by decide)
  unfold executablePathOf
  rw [e, h]
  simp only [substr0, List.take_left']
  rw [List.append_assoc, List.append_assoc, List.append_assoc]
  congr 1

/-- The text written to `std::cerr` and the result, for the three failures
that are reported with a path. -/
theorem parseInfoPlist_failures (w : World) (infoPlistPath : CppString) :
    (w.openFile infoPlistPath = none →
      parseInfoPlist w infoPlistPath =
        (BinaryType.Unknown, str "Error opening Info.plist file: " ++ infoPlistPath ++ endl)) ∧
    (∀ content, w.openFile infoPlistPath = some content →
      getCFBundleExecutable content = [] →
      parseInfoPlist w infoPlistPath =
        (BinaryType.Unknown,
          str "Error: CFBundleExecutable not found in " ++ infoPlistPath ++ endl)) ∧
    (∀ content, w.openFile infoPlistPath = some content →
      getCFBundleExecutable content ≠ [] →
      w.openFile (executablePathOf infoPlistPath (getCFBundleExecutable content)) = none →
      parseInfoPlist w infoPlistPath =
        (BinaryType.Unknown,
          str "Error opening executable file: " ++
            executablePathOf infoPlistPath (getCFBundleExecutable content) ++ endl)) := by
  refine ⟨fun h => ?_, fun content h hn => ?_, fun content h hn he => ?_⟩
  · simp [parseInfoPlist, h]
  · simp [parseInfoPlist, h, hn]
  · simp [parseInfoPlist, h, hn, he]

theorem parseInfoPlist_opened (w : World) (infoPlistPath content bytes : CppString)
    (hplist : w.openFile infoPlistPath = some content)
    (hname : getCFBundleExecutable content ≠ [])
    (hexec : w.openFile (executablePathOf infoPlistPath (getCFBundleExecutable content))
      = some bytes) :
    parseInfoPlist w infoPlistPath =
      classifyOpened w.bigEndian
        (w.staleMagic (executablePathOf infoPlistPath (getCFBundleExecutable content))) bytes := by
  simp [parseInfoPlist, hplist, hname, hexec]

theorem parseInfoPlist_of_four (w : World) (infoPlistPath content : CppString)
    (b0 b1 b2 b3 : Byte) (rest : CppString)
    (hplist : w.openFile infoPlistPath = some content)
    (hname : getCFBundleExecutable content ≠ [])
    (hexec : w.openFile (executablePathOf infoPlistPath (getCFBundleExecutable content))
      = some (b0 :: b1 :: b2 :: b3 :: rest)) :
    (parseInfoPlist w infoPlistPath).1 = headerTable b0 b1 b2 b3 := by
  rw [parseInfoPlist_opened w infoPlistPath content _ hplist hname hexec]
  exact classifyOpened_of_four _ _ b0 b1 b2 b3 rest

/-- C2: when the manifest names an executable that can be opened and holds at
least four bytes, the classification of `parseInfoPlist` is the decision table
on the first four bytes: Universal for CA FE BA BE in either byte order, Intel
for FE ED FA CE in either byte order, AppleSilicon for FE ED FA CF in either
byte order, Unknown for every other four bytes. -/
theorem C2_classification_by_magic (w : World) (infoPlistPath content : CppString)
    (b0 b1 b2 b3 : Byte) (rest : CppString)
    (hplist : w.openFile infoPlistPath = some content)
    (hname : getCFBundleExecutable content ≠ [])
    (hexec : w.openFile (executablePathOf infoPlistPath (getCFBundleExecutable content))
      = some (b0 :: b1 :: b2 :: b3 :: rest)) :
    (parseInfoPlist w infoPlistPath).1 = headerTable b0 b1 b2 b3 :=
  parseInfoPlist_of_four w infoPlistPath content b0 b1 b2 b3 rest hplist hname hexec

/-- C2 witness: the bundle `A.app` of the concrete directory, whose executable
starts with CF FA ED FE. -/
theorem C2_classification_by_magic_witness :
    (parseInfoPlist demoWorld (str "/Applications/A.app/Contents/Info.plist")).1 =
      BinaryType.AppleSilicon :=
  C2_classification_by_magic demoWorld (str "/Applications/A.app/Contents/Info.plist")
    (demoManifest "A") 0xCF 0xFA 0xED 0xFE [12, 0, 0, 1] (by decide) (by decide) (by decide)

/-- C3 (the code at the failing input): the executable of `T.app` is an empty
file. `read` stores nothing, `magic` keeps the bytes it held, and with
CA FE BA BE there the bundle is classified Universal, without a diagnostic. -/
theorem C3_short_file_classified_by_stale_bytes :
    staleWorld.openFile (str "/Applications/T.app/Contents/MacOS/T") = some [] ∧
      parseInfoPlist staleWorld (str "/Applications/T.app/Contents/Info.plist") =
        (BinaryType.Universal, []) := by
  decide

/-- With fewer than four bytes in the file the result depends on what the
variable held: the same empty file is Unknown when `magic` held zeros. -/
theorem short_file_result_depends_on_stale_bytes :
    (parseInfoPlist demoWorld (str "/Applications/T.app/Contents/Info.plist")).1 =
        BinaryType.Unknown ∧
      (parseInfoPlist staleWorld (str "/Applications/T.app/Contents/Info.plist")).1 =
        BinaryType.Universal := by
  decide

/-- C9 (the code at the failing input): the executable of `S.app` is a shell
script. The one line written to `std::cerr` is `Unknown Binary Format`; neither
the path of the executable nor the path of the manifest occurs in it. -/
theorem C9_unknown_format_line_names_no_path :
    parseInfoPlist demoWorld (str "/Applications/S.app/Contents/Info.plist") =
        (BinaryType.Unknown, str "Unknown Binary Format\n") ∧
      ¬ str "/Applications/S.app/Contents/MacOS/S" <:+: str "Unknown Binary Format\n" ∧
      ¬ str "/Applications/S.app/Contents/Info.plist" <:+: str "Unknown Binary Format\n" := by
  decide

/-! ## The record of a candidate bundle -/

theorem recordOf_binaryType (w : World) (e : DirEntry) :
    (recordOf w e).binaryType = (parseInfoPlist w (e.path ++ plistSuffix)).1 := rfl

/-- The parts of the record invariant that hold: the classification is Unknown
when the name is empty, when the executable cannot be opened, and when the
executable holds at least four bytes that match no magic number; a record that
is not Unknown has a non-empty name. -/
theorem record_invariant (w : World) (e : DirEntry) :
    ((recordOf w e).executableName = [] → (recordOf w e).binaryType = BinaryType.Unknown) ∧
    (w.openFile (e.path ++ str "/Contents/MacOS/" ++ (recordOf w e).executableName) = none →
      (recordOf w e).binaryType = BinaryType.Unknown) ∧
    (∀ b0 b1 b2 b3 rest,
      w.openFile (e.path ++ str "/Contents/MacOS/" ++ (recordOf w e).executableName)
        = some (b0 :: b1 :: b2 :: b3 :: rest) →
      headerTable b0 b1 b2 b3 = BinaryType.Unknown →
      (recordOf w e).binaryType = BinaryType.Unknown) ∧
    ((recordOf w e).binaryType ≠ BinaryType.Unknown → (recordOf w e).executableName ≠ []) := by
  have hf := parseInfoPlist_failures w (e.path ++ plistSuffix)
  cases hopen : w.openFile (e.path ++ plistSuffix) with
  | none =>
    have hu : (recordOf w e).binaryType = BinaryType.Unknown := by
      rw [recordOf_binaryType, hf.1 hopen]
    exact ⟨fun _ => hu, fun _ => hu, fun _ _ _ _ _ _ _ => hu, fun h => absurd hu h⟩
  | some content =>
    have hn : (recordOf w e).executableName = getCFBundleExecutable content := by
      simp [recordOf, buildRecord, hopen]
    rw [hn]
    by_cases hname : getCFBundleExecutable content = []
    · have hu : (recordOf w e).binaryType = BinaryType.Unknown := by
        rw [recordOf_binaryType, hf.2.1 content hopen hname]
      exact ⟨fun _ => hu, fun _ => hu, fun _ _ _ _ _ _ _ => hu, fun h => absurd hu h⟩
    · rw [← executablePathOf_plist]
      refine ⟨fun h => absurd h hname, fun h => ?_, fun b0 b1 b2 b3 rest h ht => ?_,
        fun _ => hname⟩
      · rw [recordOf_binaryType, hf.2.2 content hopen hname h]
      · rw [recordOf_binaryType,
          parseInfoPlist_of_four w _ content b0 b1 b2 b3 rest hopen hname h, ht]

/-- C7 (the code at the failing input): the executable of the candidate bundle
`T.app` is an empty file, so its header matches no magic number; with the
bytes CA FE BA BE left in `magic` its record is Universal, and the report
lists it in the Universal section. -/
theorem C7_record_of_empty_executable_is_universal :
    staleWorld.pathExists (str "/Applications/T.app/Contents/Info.plist") = some true ∧
      staleWorld.openFile (str "/Applications/T.app/Contents/MacOS/T") = some [] ∧
      ¬ HeaderMatchesMagic [] ∧
      recordOf staleWorld ⟨str "/Applications/T.app", true⟩ =
        ⟨str "T", str "/Applications/T.app/Contents/Info.plist", BinaryType.Universal⟩ ∧
      (listDirectoriesAndInfoPlist staleWorld insertionSort (str "/Applications")).out =
        str ("\nIntel (x86_64) Binaries:\nM\nZ\n\nApple Silicon (arm64) Binaries:\nA\n" ++
          "\nUniversal Binaries:\nT\nU\n") := by
  refine ⟨by decide, by decide, ?_, by decide, by decide⟩
  rintro ⟨b0, b1, b2, b3, rest, h, -⟩
  cases h

/-! ## The pass over the directory -/

/-- The report of the concrete directory. -/
theorem demo_report :
    (listDirectoriesAndInfoPlist demoWorld insertionSort (str "/Applications")).out =
      str ("\nIntel (x86_64) Binaries:\nM\nZ\n\nApple Silicon (arm64) Binaries:\nA\n" ++
        "\nUniversal Binaries:\nU\n") := by
  decide

theorem insertSorted_map (f : ProgramInfo → ProgramInfo)
    (hf : ∀ a b, nameLess (f a) (f b) = nameLess a b) (x : ProgramInfo)
    (l : List ProgramInfo) :
    insertSorted nameLess (f x) (l.map f) = (insertSorted nameLess x l).map f := by
  induction l with
  | nil => rfl
  | cons y ys ih =>
    simp only [List.map_cons, insertSorted, hf]
    split
    · rw [ih]; rfl
    · rfl

theorem insertionSort_comparatorOnly : ComparatorOnly insertionSort := by
  intro f l hf
  induction l with
  | nil => rfl
  | cons x xs ih =>
    simp only [List.map_cons, insertionSort]
    rw [ih, insertSorted_map f hf]

/-- No sort that meets the contract and reaches the records through the
comparator only can order equal names by path: of the two arrangements of two
bundles that declare the same executable, one comes out with the paths
descending. -/
theorem ties_not_ordered_by_path (sort : SortFn) (hsort : StdSortContract sort)
    (hcmp : ComparatorOnly sort) :
    ∃ l : List ProgramInfo, ¬ OrderedByNameThenPath (sort nameLess l) := by
  let r₁ : ProgramInfo := ⟨str "A", str "/Applications/A.app/Contents/Info.plist", .Intel⟩
  let r₂ : ProgramInfo := ⟨str "A", str "/Applications/B.app/Contents/Info.plist", .Intel⟩
  let f : ProgramInfo → ProgramInfo := fun p => if p = r₁ then r₂ else if p = r₂ then r₁ else p
  have hfname : ∀ p, (f p).executableName = p.executableName := by
    intro p
    show (if p = r₁ then r₂ else if p = r₂ then r₁ else p).executableName = p.executableName
    split
    · rename_i h; rw [h]
    · split
      · rename_i h; rw [h]
      · rfl
  have hf : ∀ a b, nameLess (f a) (f b) = nameLess a b := by
    intro a b
    simp only [nameLess, hfname]
  have hbad : ¬ OrderedByNameThenPath [r₂, r₁] := by
    intro h
    have h' := (List.pairwise_cons.mp h).1 r₁ (List.mem_cons_self _ _)
    revert h'
    decide
  have hmap : [r₁, r₂].map f = [r₂, r₁] := by decide
  have hperm := (hsort [r₁, r₂]).1
  have hlen := hperm.length_eq
  by_cases hcase : sort nameLess [r₁, r₂] = [r₂, r₁]
  · exact ⟨[r₁, r₂], by rw [hcase]; exact hbad⟩
  · have hcase' : sort nameLess [r₁, r₂] = [r₁, r₂] := by
      match hs : sort nameLess [r₁, r₂], hlen with
      | [a, b], _ =>
        rw [hs] at hperm hcase
        have ha : a ∈ [r₁, r₂] := hperm.subset (List.mem_cons_self _ _)
        have hb : b ∈ [r₁, r₂] := hperm.subset (List.mem_cons_of_mem _ (List.mem_cons_self _ _))
        have h₁ : r₁ ∈ [a, b] := hperm.symm.subset (List.mem_cons_self _ _)
        have h₂ : r₂ ∈ [a, b] :=
          hperm.symm.subset (List.mem_cons_of_mem _ (List.mem_cons_self _ _))
        simp only [List.mem_cons, List.mem_singleton, List.not_mem_nil, or_false] at ha hb h₁ h₂
        have hne : r₁ ≠ r₂ := by decide
        rcases ha with rfl | rfl <;> rcases hb with rfl | rfl
        · exact absurd (h₂.elim id id).symm hne
        · rfl
        · exact absurd rfl hcase
        · exact absurd (h₁.elim id id) hne
    refine ⟨[r₂, r₁], ?_⟩
    rw [← hmap, hcmp f [r₁, r₂] hf, hcase', hmap]
    exact hbad

end Fubcc
